import Mathlib

/-!
Verification of the retrieval-result deduplication routine of this repository
(`deduplicate_text` in `src/main.py`).

Strings are modelled as `List Char`.  The Python pieces embedded here are:

* `re.split(r'(?<=[.!?])\s+', text)` — modelled by `reSplit`: a left-to-right
  scan that closes the current segment after a `.`/`!`/`?` character that is
  immediately followed by whitespace, and then consumes the maximal whitespace
  run (the regex separator) before starting the next segment.
* `str.strip()` — modelled by `pyStrip` (drop leading and trailing whitespace).
* `difflib.SequenceMatcher(None, a, b).ratio()` — modelled by `ratioOf`:
  the Ratcliff-Obershelp matching of CPython's `difflib`, including the
  `autojunk` treatment of popular elements of `b` (active when
  `len(b) >= 200`), the inner dynamic-programming scan of
  `find_longest_match` with its exact update rule (strict improvement,
  ascending `i` then ascending `j`), and the two non-junk extension loops.
  Since `isjunk is None`, the junk set `bjunk` is empty, so the two junk
  extension loops of the source never execute and are omitted.  The final
  float division `2.0 * matches / length` is modelled exactly over `ℚ`.
* the retention loop of `deduplicate_text` — modelled by `dedupStep` folded
  over the segments, and `" ".join(...)` by `joinSpaces`.
-/

set_option maxRecDepth 100000

namespace Dedup

/-- Whitespace characters (the set shared by `str.strip()` and `\s`). -/
def isWs (c : Char) : Bool :=
  c = ' ' || c = '\t' || c = '\n' || c = '\r' || c = '\x0b' || c = '\x0c' ||
  c = '\x1c' || c = '\x1d' || c = '\x1e' || c = '\x1f' || c = '\x85' || c = '\xa0'

/-- Sentence-ending punctuation of the split pattern `[.!?]`. -/
def isPunct (c : Char) : Bool :=
  c = '.' || c = '!' || c = '?'

/-- Whether a character list starts with a whitespace character. -/
def headIsWs : List Char → Bool
  | [] => false
  | c :: _ => isWs c

/-- Left part of `str.strip()`. -/
def trimLeft (l : List Char) : List Char := l.dropWhile isWs

/-- Right part of `str.strip()`. -/
def trimRight (l : List Char) : List Char := (l.reverse.dropWhile isWs).reverse

/-- `str.strip()`. -/
def pyStrip (l : List Char) : List Char := trimRight (trimLeft l)

/-- Scanner for `re.split(r'(?<=[.!?])\s+', text)`.  `cur` is the current
segment accumulated in reverse; the flag is true while the scanner is inside
the whitespace run of a separator (the regex consumes the run greedily). -/
def reSplitAux : List Char → List Char → Bool → List (List Char)
  | [], cur, _ => [cur.reverse]
  | c :: rest, cur, skipping =>
    if skipping && isWs c then reSplitAux rest cur true
    else if isPunct c && headIsWs rest then
      (c :: cur).reverse :: reSplitAux rest [] true
    else reSplitAux rest (c :: cur) false

/-- `re.split(r'(?<=[.!?])\s+', text)`. -/
def reSplit (text : List Char) : List (List Char) := reSplitAux text [] false

/-- Reference segmentation as the specification words it: split immediately
after any `.`, `!` or `?` that is followed by whitespace, keeping the
punctuation with the preceding unit (the whitespace stays with the following
unit and is removed by the later trim). -/
def specSplitAux : List Char → List Char → List (List Char)
  | [], cur => [cur.reverse]
  | c :: rest, cur =>
    if isPunct c && headIsWs rest then (c :: cur).reverse :: specSplitAux rest []
    else specSplitAux rest (c :: cur)

/-- Specification segmentation of a whole text. -/
def specSplit (text : List Char) : List (List Char) := specSplitAux text []

/-- Negation of `difflib`'s autojunk popularity test on elements of `b`:
popular elements (count above `len(b) // 100 + 1` when `len(b) >= 200`)
are removed from `b2j`. -/
def notPopular (b : List Char) (c : Char) : Bool :=
  !(decide (200 ≤ b.length) && decide (b.length / 100 + 1 < b.count c))

/-- One row of the `find_longest_match` dynamic programming: the length of
the longest matching block ending at `a[i] = b[j]`, given the previous row
(`j2len` in the source).  A position `j` participates only if `b[j]`
equals the current `a[i]`, is not autojunk-popular, and lies in
`[blo, bhi)`. -/
def nextRow (b : List Char) (blo bhi : Nat) (ai : Char) (prev : Nat → Nat) :
    Nat → Nat :=
  fun j =>
    if (b.get? j == some ai) && notPopular b ai &&
        decide (blo ≤ j) && decide (j < bhi) then
      (if j == 0 then 0 else prev (j - 1)) + 1
    else 0

/-- The best-block update of `find_longest_match` along one row: scan `j`
ascending and replace the best block on strict improvement
(`if k > bestsize`). -/
def rowBest (i blo bhi : Nat) (row : Nat → Nat) (best : Nat × Nat × Nat) :
    Nat × Nat × Nat :=
  (List.range' blo (bhi - blo)).foldl
    (fun best j =>
      if best.2.2 < row j then (i + 1 - row j, j + 1 - row j, row j) else best)
    best

/-- One iteration of the outer `for i` loop of `find_longest_match`:
build the new row from the previous one and update the best block along it. -/
def dpStep (a b : List Char) (blo bhi : Nat)
    (st : (Nat × Nat × Nat) × (Nat → Nat)) (i : Nat) :
    (Nat × Nat × Nat) × (Nat → Nat) :=
  match a.get? i with
  | some ai =>
    let row := nextRow b blo bhi ai st.2
    (rowBest i blo bhi row st.1, row)
  | none => st

/-- The dynamic-programming phase of `find_longest_match`: scan `i` ascending
over `[alo, ahi)`, building each row from the previous one, starting from
`besti, bestj, bestsize = alo, blo, 0`. -/
def dpLoop (a b : List Char) (alo ahi blo bhi : Nat) : Nat × Nat × Nat :=
  ((List.range' alo (ahi - alo)).foldl (dpStep a b blo bhi)
    ((alo, blo, 0), fun _ => 0)).1

/-- Equality of the characters `a[i]` and `b[j]` (both in range). -/
def chEq (a b : List Char) (i j : Nat) : Bool :=
  match a.get? i, b.get? j with
  | some x, some y => x == y
  | _, _ => false

/-- The backward extension loop of `find_longest_match`
(`while besti > alo and bestj > blo and a[besti-1] == b[bestj-1]`;
the `not isbjunk` guard is vacuous because `bjunk` is empty). -/
def extendLower (a b : List Char) (alo blo : Nat) :
    Nat → Nat × Nat × Nat → Nat × Nat × Nat
  | 0, st => st
  | fuel + 1, (i, j, k) =>
    if decide (alo < i) && decide (blo < j) && chEq a b (i - 1) (j - 1) then
      extendLower a b alo blo fuel (i - 1, j - 1, k + 1)
    else (i, j, k)

/-- The forward extension loop of `find_longest_match`. -/
def extendUpper (a b : List Char) (ahi bhi : Nat) :
    Nat → Nat × Nat × Nat → Nat × Nat × Nat
  | 0, st => st
  | fuel + 1, (i, j, k) =>
    if decide (i + k < ahi) && decide (j + k < bhi) && chEq a b (i + k) (j + k) then
      extendUpper a b ahi bhi fuel (i, j, k + 1)
    else (i, j, k)

/-- `SequenceMatcher.find_longest_match` on the ranges
`a[alo:ahi]`, `b[blo:bhi]`.  Both extension fuels are bounded by `ahi`,
which dominates the number of possible steps. -/
def findLongestMatch (a b : List Char) (alo ahi blo bhi : Nat) :
    Nat × Nat × Nat :=
  extendUpper a b ahi bhi ahi
    (extendLower a b alo blo ahi (dpLoop a b alo ahi blo bhi))

/-- Total size of the matching blocks found by the recursive subdivision of
`get_matching_blocks` (the queue order does not affect the sum).  The fuel
argument dominates the recursion depth: every recursive call shrinks
`ahi - alo` by at least one. -/
def matchTotal (a b : List Char) : Nat → Nat → Nat → Nat → Nat → Nat
  | 0, _, _, _, _ => 0
  | fuel + 1, alo, ahi, blo, bhi =>
    let t := findLongestMatch a b alo ahi blo bhi
    let i := t.1
    let j := t.2.1
    let k := t.2.2
    if k == 0 then 0
    else
      k +
        (if decide (alo < i) && decide (blo < j) then
          matchTotal a b fuel alo i blo j
        else 0) +
        (if decide (i + k < ahi) && decide (j + k < bhi) then
          matchTotal a b fuel (i + k) ahi (j + k) bhi
        else 0)

/-- `SequenceMatcher(None, a, b).ratio()`, computed exactly over `ℚ`
(`_calculate_ratio`: `2.0 * matches / length if length else 1.0`; the
division is expressed with `mkRat`, which equals the exact fraction). -/
def ratioOf (a b : List Char) : ℚ :=
  if a.length + b.length == 0 then 1
  else mkRat (2 * matchTotal a b (a.length + 1) 0 a.length 0 b.length)
    (a.length + b.length)

/-- One iteration of the retention loop of `deduplicate_text`: strip the
candidate, skip it when empty, drop it when some already retained sentence
has similarity ratio strictly above the threshold, append it otherwise. -/
def dedupStep (threshold : ℚ) (acc : List (List Char)) (sentence : List Char) :
    List (List Char) :=
  let clean := pyStrip sentence
  if clean.isEmpty then acc
  else if acc.any (fun existing => decide (threshold < ratioOf clean existing)) then acc
  else acc ++ [clean]

/-- `" ".join(l)`. -/
def joinSpaces (l : List (List Char)) : List Char :=
  (l.intersperse [' ']).flatten

/-- `deduplicate_text(text, threshold)` from `src/main.py`. -/
def deduplicate_text (text : List Char) (threshold : ℚ) : List Char :=
  joinSpaces ((reSplit text).foldl (dedupStep threshold) [])

/-- The retention test applied to an already stripped, non-empty candidate. -/
def keepStep (threshold : ℚ) (acc : List (List Char)) (clean : List Char) :
    List (List Char) :=
  if acc.any (fun existing => decide (threshold < ratioOf clean existing)) then acc
  else acc ++ [clean]

/-- The stripped non-empty candidate units of a text, in input order. -/
def cleanUnits (text : List Char) : List (List Char) :=
  ((reSplit text).map pyStrip).filter (fun u => !u.isEmpty)

/-- The retained sentences of `deduplicate_text`, before joining. -/
def retainedUnits (text : List Char) (threshold : ℚ) : List (List Char) :=
  (cleanUnits text).foldl (keepStep threshold) []

/-- The candidate units of the reference algorithm of the specification:
spec segmentation, then trim, then discard empties. -/
def specCleanUnits (text : List Char) : List (List Char) :=
  ((specSplit text).map pyStrip).filter (fun u => !u.isEmpty)

/-- The reference deduplication algorithm as the specification words it. -/
def dedupSpecRef (text : List Char) (threshold : ℚ) : List Char :=
  joinSpaces ((specCleanUnits text).foldl (keepStep threshold) [])

/-- The stripped non-empty units of an arbitrary segment list. -/
def cleanOf (l : List (List Char)) : List (List Char) :=
  (l.map pyStrip).filter (fun u => !u.isEmpty)

/-- Adjacent pair allowed inside one segment: not a sentence-ending
punctuation character immediately followed by whitespace. -/
def okPair (x y : Char) : Bool := !(isPunct x && isWs y)

/-- Whether a unit ends with sentence-ending punctuation. -/
def endsPunct (l : List Char) : Bool :=
  match l.getLast? with
  | some c => isPunct c
  | none => false

/-- Invariant of the outer scan of `find_longest_match` once every index
below `i0` has been processed: the best block lies inside the ranges and
the row values are bounded by the number of processed indices and by the
distance to `blo`. -/
def DPInv (alo blo bhi i0 : Nat) (st : (Nat × Nat × Nat) × (Nat → Nat)) :
    Prop :=
  alo ≤ i0 ∧
  alo ≤ st.1.1 ∧ blo ≤ st.1.2.1 ∧ st.1.1 + st.1.2.2 ≤ i0 ∧
  st.1.2.1 + st.1.2.2 ≤ bhi ∧
  (∀ j, st.2 j + alo ≤ i0) ∧
  (∀ j, 1 ≤ st.2 j → st.2 j + blo ≤ j + 1 ∧ blo ≤ j ∧ j < bhi)

/-- Bounds preserved along the best-update scan of one row. -/
def BestInv (alo blo bhi iCur : Nat) (best : Nat × Nat × Nat) : Prop :=
  alo ≤ best.1 ∧ blo ≤ best.2.1 ∧ best.1 + best.2.2 ≤ iCur + 1 ∧
    best.2.1 + best.2.2 ≤ bhi

/-! ### Generic fold invariant -/

theorem foldl_inv {α β : Type} (P : α → Prop) (f : α → β → α) :
    ∀ (l : List β) (start : α), P start →
      (∀ s x, x ∈ l → P s → P (f s x)) → P (l.foldl f start) := by
  intro l
  induction l with
  | nil => intro start h0 _; exact h0
  | cons x l ih =>
    intro start h0 hstep
    exact ih (f start x) (hstep start x (List.mem_cons_self x l) h0)
      (fun s y hy hs => hstep s y (List.mem_cons_of_mem x hy) hs)

/-! ### The fold over raw segments equals the fold over clean units -/

theorem foldl_dedupStep_eq (t : ℚ) :
    ∀ (l acc : List (List Char)),
      l.foldl (dedupStep t) acc =
        ((l.map pyStrip).filter (fun u => !u.isEmpty)).foldl (keepStep t) acc := by
  intro l
  induction l with
  | nil => intro acc; rfl
  | cons s l ih =>
    intro acc
    by_cases h : (pyStrip s).isEmpty
    · simp only [List.foldl_cons, List.map_cons, List.filter_cons, h,
        Bool.not_true, dedupStep]
      simpa [dedupStep, h] using ih acc
    · have hb : (pyStrip s).isEmpty = false := Bool.eq_false_iff.mpr h
      simp only [List.foldl_cons, List.map_cons, List.filter_cons, hb,
        Bool.not_false, if_pos, dedupStep, keepStep]
      simpa [dedupStep, keepStep, hb] using ih (keepStep t acc (pyStrip s))

theorem deduplicate_text_eq_retained (text : List Char) (t : ℚ) :
    deduplicate_text text t = joinSpaces (retainedUnits text t) := by
  unfold deduplicate_text retainedUnits cleanUnits
  rw [foldl_dedupStep_eq]

/-- Claim C2: for every input string (including the empty string,
whitespace-only text, non-ASCII text, and text without sentence-ending
punctuation) and every threshold, `deduplicate_text` is a total function:
it is defined and yields a string on every input.  In this embedding all
partial operations of the source (list indexing, the ratio division) appear
behind the same guards the source uses, so definedness of the total
function renders "terminates, returns a string, never raises". -/
theorem c2_deduplicate_text_total (text : List Char) (t : ℚ) :
    ∃ r : List Char, deduplicate_text text t = r :=
  ⟨deduplicate_text text t, rfl⟩

/-! ### The retained list is a sublist of the clean units -/

theorem foldl_keepStep_sublist (t : ℚ) :
    ∀ (l acc : List (List Char)),
      List.Sublist (l.foldl (keepStep t) acc) (acc ++ l) := by
  intro l
  induction l with
  | nil => intro acc; simp
  | cons c l ih =>
    intro acc
    by_cases h : acc.any (fun e => decide (t < ratioOf c e)) = true
    · have step : keepStep t acc c = acc := by simp [keepStep, h]
      simp only [List.foldl_cons, step]
      exact (ih acc).trans ((List.sublist_cons_self c l).append_left acc)
    · have step : keepStep t acc c = acc ++ [c] := by
        have hb := Bool.eq_false_iff.mpr h
        simp [keepStep, hb]
      simp only [List.foldl_cons, step]
      have := ih (acc ++ [c])
      simpa [List.append_assoc] using this

/-- Claim C7: the retained sentences are a subsequence of the trimmed
segmented sentences of the text (which are themselves a subsequence of all
trimmed segments), in the same relative order. -/
theorem c7_retained_sublist (text : List Char) (t : ℚ) :
    List.Sublist (retainedUnits text t) (cleanUnits text) ∧
      List.Sublist (cleanUnits text) ((reSplit text).map pyStrip) := by
  constructor
  · have := foldl_keepStep_sublist t (cleanUnits text) []
    simpa [retainedUnits] using this
  · exact List.filter_sublist _

/-! ### Pairwise invariant of the retention loop -/

theorem any_ratio_false (t : ℚ) (c : List Char) (acc : List (List Char))
    (h : acc.any (fun e => decide (t < ratioOf c e)) = false) :
    ∀ e ∈ acc, ¬ t < ratioOf c e := by
  simpa using h

theorem retained_pairwise (text : List Char) (t : ℚ) :
    (retainedUnits text t).Pairwise
      (fun earlier later => ¬ t < ratioOf later earlier) := by
  refine foldl_inv
    (fun acc => acc.Pairwise (fun earlier later => ¬ t < ratioOf later earlier))
    (keepStep t) (cleanUnits text) [] List.Pairwise.nil ?_
  intro acc c _ hacc
  by_cases h : acc.any (fun e => decide (t < ratioOf c e)) = true
  · simpa [keepStep, h] using hacc
  · have hb := Bool.eq_false_iff.mpr h
    have hall := any_ratio_false t c acc hb
    have step : keepStep t acc c = acc ++ [c] := by simp [keepStep, hb]
    rw [step]
    refine List.pairwise_append.mpr ⟨hacc, List.pairwise_singleton _ _, ?_⟩
    intro a ha b hb2
    rw [List.mem_singleton.mp hb2]
    exact hall a ha

/-- Claim C3 (amended): the loop invariant the code actually guarantees is
the ordered one: for every earlier retained sentence `e` and later retained
sentence `l`, the ratio computed as the code computes it — later sentence
as first argument of the matcher, earlier as second — is not strictly above
the threshold.  The unordered reading fails because the measure is not
symmetric (see the counterexample). -/
theorem c3_retained_pairwise_ordered (text : List Char) (t : ℚ) :
    (retainedUnits text t).Pairwise
      (fun earlier later => ¬ t < ratioOf later earlier) :=
  retained_pairwise text t

/-- Claim C3 counterexample: at threshold 2/5 this text retains both of its
sentences, yet the similarity ratio of the pair taken in the other
orientation (earlier sentence as first argument) is 8/15 > 2/5, so two
distinct retained sentences do have a pairwise similarity ratio strictly
above the threshold. -/
theorem c3_counterexample :
    retainedUnits "ABzMMQQ. QQwABMM".toList (mkRat 2 5) =
      ["ABzMMQQ.".toList, "QQwABMM".toList] ∧
    mkRat 2 5 < ratioOf "ABzMMQQ.".toList "QQwABMM".toList := by
  exact ⟨by decide, by decide⟩

/-- Claim C4 counterexample: for thresholds 1/3 < 1/2 on this text the lower
threshold retains strictly more sentences than the higher one, refuting
count monotonicity in the threshold. -/
theorem c4_counterexample :
    mkRat 1 3 < mkRat 1 2 ∧
    (retainedUnits "ssss? pqrs? pqr? rs".toList (mkRat 1 2)).length <
      (retainedUnits "ssss? pqrs? pqr? rs".toList (mkRat 1 3)).length := by
  exact ⟨by decide, by decide⟩

/-- Claim C4 (amended): monotonicity holds for each single retention test
against a fixed already-retained list — a candidate that passes the duplicate
check at a lower threshold also passes it at any higher threshold — but the
end-to-end retained count is not monotone in the threshold, because dropping
a sentence changes the list later candidates are compared against. -/
theorem c4_keep_monotone (t1 t2 : ℚ) (acc : List (List Char)) (c : List Char)
    (h12 : t1 ≤ t2)
    (h : acc.any (fun e => decide (t1 < ratioOf c e)) = false) :
    keepStep t2 acc c = acc ++ [c] := by
  have h1 := any_ratio_false t1 c acc h
  have h2 : acc.any (fun e => decide (t2 < ratioOf c e)) = false := by
    simp only [List.any_eq_false, decide_eq_true_eq]
    intro e he hlt
    exact h1 e he (lt_of_le_of_lt h12 hlt)
  simp [keepStep, h2]

theorem c4_keep_monotone_witness :
    keepStep (mkRat 3 4) ["aa.".toList] "zz.".toList =
      ["aa.".toList, "zz.".toList] :=
  c4_keep_monotone (mkRat 1 2) (mkRat 3 4) ["aa.".toList] "zz.".toList
    (by decide) (by decide)

/-- Claim C5 counterexample: with threshold 1 the two candidate units of
this text are character-for-character identical and their similarity ratio
is exactly 1, yet the later duplicate is retained, not dropped: the strict
comparison `ratio > 1` never fires. -/
theorem c5_counterexample :
    cleanUnits "aa. aa.".toList = ["aa.".toList, "aa.".toList] ∧
    ratioOf "aa.".toList "aa.".toList = 1 ∧
    retainedUnits "aa. aa.".toList 1 = ["aa.".toList, "aa.".toList] := by
  exact ⟨by decide, by decide, by decide⟩

/-! ### Whitespace-only inputs -/

theorem ws_punct_false (c : Char) (hw : isWs c = true) : isPunct c = false := by
  by_contra hcon
  have hp : isPunct c = true := by
    cases hq : isPunct c
    · exact absurd hq hcon
    · rfl
  simp only [isPunct, Bool.or_eq_true, decide_eq_true_eq] at hp
  rcases hp with (h | h) | h <;> subst h <;> exact absurd hw (by decide)

theorem scan_no_split :
    ∀ (r cur : List Char), List.Chain' (fun x y => okPair x y = true) r →
      reSplitAux r cur false = [cur.reverse ++ r] := by
  intro r
  induction r with
  | nil => intro cur _; simp [reSplitAux]
  | cons c rest ih =>
    intro cur hch
    have hcond : (isPunct c && headIsWs rest) = false := by
      cases rest with
      | nil => simp [headIsWs]
      | cons d rest2 =>
        have hok : okPair c d = true := (List.chain'_cons.mp hch).1
        simp only [okPair, Bool.not_eq_true', Bool.and_eq_false_iff] at hok
        simp only [headIsWs]
        rcases hok with h | h
        · simp [h]
        · simp [h]
    simp only [reSplitAux, Bool.false_and, Bool.and_self, if_neg, hcond,
      Bool.false_eq_true, not_false_iff, if_false]
    rw [ih (c :: cur) hch.tail]
    simp [List.append_assoc]

theorem chain_of_all_ws :
    ∀ (l : List Char), l.all isWs = true →
      List.Chain' (fun x y => okPair x y = true) l := by
  intro l
  induction l with
  | nil => intro _; exact List.chain'_nil
  | cons c rest ih =>
    intro h
    have hc : isWs c = true ∧ rest.all isWs = true := by simpa using h
    cases rest with
    | nil => exact List.chain'_singleton c
    | cons d rest2 =>
      refine List.chain'_cons.mpr ⟨?_, ih hc.2⟩
      simp [okPair, ws_punct_false c hc.1]

theorem pyStrip_eq_nil_of_all_ws (l : List Char) (h : l.all isWs = true) :
    pyStrip l = [] := by
  have h1 : trimLeft l = [] :=
    List.dropWhile_eq_nil_iff.mpr (by simpa using h)
  simp [pyStrip, h1, trimRight]

/-- Claim C9: the empty string deduplicates to the empty string for every
threshold, and whitespace-only segments never enter the retained set, so
whitespace-only input also yields the empty string. -/
theorem c9_whitespace_only (t : ℚ) :
    deduplicate_text [] t = [] ∧
      ∀ text : List Char, text.all isWs = true → deduplicate_text text t = [] := by
  have key : ∀ text : List Char, text.all isWs = true →
      deduplicate_text text t = [] := by
    intro text h
    rw [deduplicate_text_eq_retained]
    have hsplit : reSplit text = [text] := by
      have := scan_no_split text [] (chain_of_all_ws text h)
      simpa [reSplit] using this
    have hclean : cleanUnits text = [] := by
      simp [cleanUnits, hsplit, pyStrip_eq_nil_of_all_ws text h]
    simp [retainedUnits, hclean, joinSpaces]
  exact ⟨key [] (by simp), key⟩

theorem c9_whitespace_only_witness :
    deduplicate_text [] (mkRat 4 5) = [] ∧
      deduplicate_text "  ".toList (mkRat 4 5) = [] :=
  ⟨(c9_whitespace_only (mkRat 4 5)).1,
    (c9_whitespace_only (mkRat 4 5)).2 "  ".toList (by decide)⟩

/-! ### Bounds of the matcher: the matched total never exceeds either range,
hence the similarity ratio never exceeds 1 -/

theorem nextRow_bound_a (b : List Char) (blo bhi : Nat) (ai : Char)
    (prev : Nat → Nat) (alo i0 : Nat) (h0 : alo ≤ i0)
    (h1 : ∀ j, prev j + alo ≤ i0) (j : Nat) :
    nextRow b blo bhi ai prev j + alo ≤ i0 + 1 := by
  unfold nextRow
  by_cases hC : ((b.get? j == some ai) && notPopular b ai &&
      decide (blo ≤ j) && decide (j < bhi)) = true
  · rw [if_pos hC]
    by_cases hj : (j == 0) = true
    · rw [if_pos hj]; omega
    · rw [if_neg hj]
      have := h1 (j - 1)
      omega
  · rw [if_neg hC]; omega

theorem nextRow_bound_b (b : List Char) (blo bhi : Nat) (ai : Char)
    (prev : Nat → Nat)
    (h2 : ∀ j, 1 ≤ prev j → prev j + blo ≤ j + 1) (j : Nat)
    (hrow : 1 ≤ nextRow b blo bhi ai prev j) :
    nextRow b blo bhi ai prev j + blo ≤ j + 1 ∧ blo ≤ j ∧ j < bhi := by
  unfold nextRow at hrow ⊢
  by_cases hC : ((b.get? j == some ai) && notPopular b ai &&
      decide (blo ≤ j) && decide (j < bhi)) = true
  · have hble : blo ≤ j ∧ j < bhi := by
      simp only [Bool.and_eq_true, decide_eq_true_eq] at hC
      exact ⟨hC.1.2, hC.2⟩
    rw [if_pos hC]
    refine ⟨?_, hble.1, hble.2⟩
    by_cases hj : (j == 0) = true
    · rw [if_pos hj]
      have hj0 : j = 0 := by simpa using hj
      omega
    · rw [if_neg hj]
      have hj0 : j ≠ 0 := by simpa using hj
      by_cases hp : 1 ≤ prev (j - 1)
      · have := h2 (j - 1) hp
        omega
      · have hz : prev (j - 1) = 0 := by omega
        rw [hz]
        omega
  · rw [if_neg hC] at hrow
    omega

theorem rowBest_bounds (i blo bhi alo : Nat) (row : Nat → Nat)
    (hrow_a : ∀ j, row j + alo ≤ i + 1)
    (hrow_b : ∀ j, 1 ≤ row j → row j + blo ≤ j + 1 ∧ blo ≤ j ∧ j < bhi)
    (best : Nat × Nat × Nat) (hbest : BestInv alo blo bhi i best) :
    BestInv alo blo bhi i (rowBest i blo bhi row best) := by
  unfold rowBest
  refine foldl_inv (BestInv alo blo bhi i) _ _ best hbest ?_
  intro s j _ hs
  by_cases hlt : s.2.2 < row j
  · rw [if_pos hlt]
    have h1 : 1 ≤ row j := by omega
    have ha := hrow_a j
    obtain ⟨hb1, hb2, hb3⟩ := hrow_b j h1
    exact ⟨show alo ≤ i + 1 - row j by omega,
      show blo ≤ j + 1 - row j by omega,
      show i + 1 - row j + row j ≤ i + 1 by omega,
      show j + 1 - row j + row j ≤ bhi by omega⟩
  · rw [if_neg hlt]; exact hs

theorem dpStep_inv (a b : List Char) (alo blo bhi i0 : Nat)
    (st : (Nat × Nat × Nat) × (Nat → Nat))
    (hinv : DPInv alo blo bhi i0 st) :
    DPInv alo blo bhi (i0 + 1) (dpStep a b blo bhi st i0) := by
  obtain ⟨h0, hbi, hbj, hik, hjk, hprevA, hprevB⟩ := hinv
  unfold dpStep
  cases hget : a.get? i0 with
  | none =>
    show DPInv alo blo bhi (i0 + 1) st
    exact ⟨by omega, hbi, hbj, by omega, hjk,
      fun j => by have := hprevA j; omega, hprevB⟩
  | some ai =>
    show DPInv alo blo bhi (i0 + 1)
      (rowBest i0 blo bhi (nextRow b blo bhi ai st.2) st.1,
        nextRow b blo bhi ai st.2)
    have hrow_a := fun j => nextRow_bound_a b blo bhi ai st.2 alo i0 h0 hprevA j
    have hrow_b := fun j hj => nextRow_bound_b b blo bhi ai st.2
      (fun j hj => (hprevB j hj).1) j hj
    have hbest0 : BestInv alo blo bhi i0 st.1 := ⟨hbi, hbj, by omega, hjk⟩
    have hbest := rowBest_bounds i0 blo bhi alo (nextRow b blo bhi ai st.2)
      hrow_a hrow_b st.1 hbest0
    obtain ⟨hA, hB, hC, hD⟩ := hbest
    exact ⟨by omega, hA, hB, hC, hD, hrow_a, hrow_b⟩

theorem dpFold_inv (a b : List Char) (alo blo bhi : Nat) :
    ∀ (cnt i0 : Nat) (st : (Nat × Nat × Nat) × (Nat → Nat)),
      DPInv alo blo bhi i0 st →
      DPInv alo blo bhi (i0 + cnt)
        ((List.range' i0 cnt).foldl (dpStep a b blo bhi) st) := by
  intro cnt
  induction cnt with
  | zero => intro i0 st h; simpa using h
  | succ n ih =>
    intro i0 st h
    rw [List.range'_succ]
    simp only [List.foldl_cons]
    have h1 := dpStep_inv a b alo blo bhi i0 st h
    have h2 := ih (i0 + 1) (dpStep a b blo bhi st i0) h1
    have heq : i0 + 1 + n = i0 + (n + 1) := by omega
    rwa [heq] at h2

theorem dpLoop_bounds (a b : List Char) (alo ahi blo bhi : Nat)
    (ha : alo ≤ ahi) (hb : blo ≤ bhi) :
    alo ≤ (dpLoop a b alo ahi blo bhi).1 ∧
    blo ≤ (dpLoop a b alo ahi blo bhi).2.1 ∧
    (dpLoop a b alo ahi blo bhi).1 + (dpLoop a b alo ahi blo bhi).2.2 ≤ ahi ∧
    (dpLoop a b alo ahi blo bhi).2.1 + (dpLoop a b alo ahi blo bhi).2.2 ≤ bhi := by
  have hinit : DPInv alo blo bhi alo ((alo, blo, 0), fun _ => 0) := by
    refine ⟨le_refl _, ?_, ?_, ?_, ?_, ?_, ?_⟩
    · show alo ≤ alo; exact le_refl _
    · show blo ≤ blo; exact le_refl _
    · show alo + 0 ≤ alo; omega
    · show blo + 0 ≤ bhi; omega
    · intro j; show 0 + alo ≤ alo; omega
    · intro j hj; exact absurd (show (1 : Nat) ≤ 0 from hj) (by omega)
  have h := dpFold_inv a b alo blo bhi (ahi - alo) alo _ hinit
  have heq : alo + (ahi - alo) = ahi := by omega
  rw [heq] at h
  obtain ⟨_, h1, h2, h3, h4, _, _⟩ := h
  unfold dpLoop
  exact ⟨h1, h2, h3, h4⟩

theorem extendLower_bounds (a b : List Char) (alo blo ahi bhi : Nat) :
    ∀ (fuel : Nat) (st : Nat × Nat × Nat),
      alo ≤ st.1 → blo ≤ st.2.1 → st.1 + st.2.2 ≤ ahi → st.2.1 + st.2.2 ≤ bhi →
      alo ≤ (extendLower a b alo blo fuel st).1 ∧
      blo ≤ (extendLower a b alo blo fuel st).2.1 ∧
      (extendLower a b alo blo fuel st).1 +
        (extendLower a b alo blo fuel st).2.2 ≤ ahi ∧
      (extendLower a b alo blo fuel st).2.1 +
        (extendLower a b alo blo fuel st).2.2 ≤ bhi := by
  intro fuel
  induction fuel with
  | zero => intro st h1 h2 h3 h4; exact ⟨h1, h2, h3, h4⟩
  | succ n ih =>
    intro st
    obtain ⟨i, j, k⟩ := st
    intro h1 h2 h3 h4
    have h1' : alo ≤ i := h1
    have h2' : blo ≤ j := h2
    have h3' : i + k ≤ ahi := h3
    have h4' : j + k ≤ bhi := h4
    simp only [extendLower]
    by_cases hC : (decide (alo < i) && decide (blo < j) &&
        chEq a b (i - 1) (j - 1)) = true
    · rw [if_pos hC]
      simp only [Bool.and_eq_true, decide_eq_true_eq] at hC
      exact ih (i - 1, j - 1, k + 1) (show alo ≤ i - 1 by omega)
        (show blo ≤ j - 1 by omega) (show i - 1 + (k + 1) ≤ ahi by omega)
        (show j - 1 + (k + 1) ≤ bhi by omega)
    · rw [if_neg hC]
      exact ⟨h1, h2, h3, h4⟩

theorem extendUpper_bounds (a b : List Char) (alo blo ahi bhi : Nat) :
    ∀ (fuel : Nat) (st : Nat × Nat × Nat),
      alo ≤ st.1 → blo ≤ st.2.1 → st.1 + st.2.2 ≤ ahi → st.2.1 + st.2.2 ≤ bhi →
      alo ≤ (extendUpper a b ahi bhi fuel st).1 ∧
      blo ≤ (extendUpper a b ahi bhi fuel st).2.1 ∧
      (extendUpper a b ahi bhi fuel st).1 +
        (extendUpper a b ahi bhi fuel st).2.2 ≤ ahi ∧
      (extendUpper a b ahi bhi fuel st).2.1 +
        (extendUpper a b ahi bhi fuel st).2.2 ≤ bhi := by
  intro fuel
  induction fuel with
  | zero => intro st h1 h2 h3 h4; exact ⟨h1, h2, h3, h4⟩
  | succ n ih =>
    intro st
    obtain ⟨i, j, k⟩ := st
    intro h1 h2 h3 h4
    have h1' : alo ≤ i := h1
    have h2' : blo ≤ j := h2
    have h3' : i + k ≤ ahi := h3
    have h4' : j + k ≤ bhi := h4
    simp only [extendUpper]
    by_cases hC : (decide (i + k < ahi) && decide (j + k < bhi) &&
        chEq a b (i + k) (j + k)) = true
    · rw [if_pos hC]
      simp only [Bool.and_eq_true, decide_eq_true_eq] at hC
      exact ih (i, j, k + 1) (show alo ≤ i by omega)
        (show blo ≤ j by omega) (show i + (k + 1) ≤ ahi by omega)
        (show j + (k + 1) ≤ bhi by omega)
    · rw [if_neg hC]
      exact ⟨h1, h2, h3, h4⟩

theorem findLongestMatch_bounds (a b : List Char) (alo ahi blo bhi : Nat)
    (ha : alo ≤ ahi) (hb : blo ≤ bhi) :
    alo ≤ (findLongestMatch a b alo ahi blo bhi).1 ∧
    blo ≤ (findLongestMatch a b alo ahi blo bhi).2.1 ∧
    (findLongestMatch a b alo ahi blo bhi).1 +
      (findLongestMatch a b alo ahi blo bhi).2.2 ≤ ahi ∧
    (findLongestMatch a b alo ahi blo bhi).2.1 +
      (findLongestMatch a b alo ahi blo bhi).2.2 ≤ bhi := by
  have h0 := dpLoop_bounds a b alo ahi blo bhi ha hb
  have h1 := extendLower_bounds a b alo blo ahi bhi ahi
    (dpLoop a b alo ahi blo bhi) h0.1 h0.2.1 h0.2.2.1 h0.2.2.2
  have h2 := extendUpper_bounds a b alo blo ahi bhi ahi
    (extendLower a b alo blo ahi (dpLoop a b alo ahi blo bhi))
    h1.1 h1.2.1 h1.2.2.1 h1.2.2.2
  unfold findLongestMatch
  exact h2

theorem matchTotal_le (a b : List Char) :
    ∀ (fuel alo ahi blo bhi : Nat), alo ≤ ahi → blo ≤ bhi →
      matchTotal a b fuel alo ahi blo bhi + alo ≤ ahi ∧
      matchTotal a b fuel alo ahi blo bhi + blo ≤ bhi := by
  intro fuel
  induction fuel with
  | zero =>
    intro alo ahi blo bhi ha hb
    simp only [matchTotal]
    omega
  | succ n ih =>
    intro alo ahi blo bhi ha hb
    have hflm := findLongestMatch_bounds a b alo ahi blo bhi ha hb
    obtain ⟨hfa, hfb, hfc, hfd⟩ := hflm
    simp only [matchTotal]
    by_cases hk : ((findLongestMatch a b alo ahi blo bhi).2.2 == 0) = true
    · rw [if_pos hk]; omega
    · rw [if_neg hk]
      have hX : (if decide (alo < (findLongestMatch a b alo ahi blo bhi).1) &&
            decide (blo < (findLongestMatch a b alo ahi blo bhi).2.1) then
          matchTotal a b n alo (findLongestMatch a b alo ahi blo bhi).1 blo
            (findLongestMatch a b alo ahi blo bhi).2.1
        else 0) + alo ≤ (findLongestMatch a b alo ahi blo bhi).1 ∧
          (if decide (alo < (findLongestMatch a b alo ahi blo bhi).1) &&
            decide (blo < (findLongestMatch a b alo ahi blo bhi).2.1) then
          matchTotal a b n alo (findLongestMatch a b alo ahi blo bhi).1 blo
            (findLongestMatch a b alo ahi blo bhi).2.1
        else 0) + blo ≤ (findLongestMatch a b alo ahi blo bhi).2.1 := by
        by_cases hC : (decide (alo < (findLongestMatch a b alo ahi blo bhi).1) &&
            decide (blo < (findLongestMatch a b alo ahi blo bhi).2.1)) = true
        · rw [if_pos hC]
          simp only [Bool.and_eq_true, decide_eq_true_eq] at hC
          exact ih alo (findLongestMatch a b alo ahi blo bhi).1 blo
            (findLongestMatch a b alo ahi blo bhi).2.1
            (le_of_lt hC.1) (le_of_lt hC.2)
        · rw [if_neg hC]; omega
      have hY : (if decide ((findLongestMatch a b alo ahi blo bhi).1 +
            (findLongestMatch a b alo ahi blo bhi).2.2 < ahi) &&
            decide ((findLongestMatch a b alo ahi blo bhi).2.1 +
            (findLongestMatch a b alo ahi blo bhi).2.2 < bhi) then
          matchTotal a b n
            ((findLongestMatch a b alo ahi blo bhi).1 +
              (findLongestMatch a b alo ahi blo bhi).2.2) ahi
            ((findLongestMatch a b alo ahi blo bhi).2.1 +
              (findLongestMatch a b alo ahi blo bhi).2.2) bhi
        else 0) + ((findLongestMatch a b alo ahi blo bhi).1 +
            (findLongestMatch a b alo ahi blo bhi).2.2) ≤ ahi ∧
          (if decide ((findLongestMatch a b alo ahi blo bhi).1 +
            (findLongestMatch a b alo ahi blo bhi).2.2 < ahi) &&
            decide ((findLongestMatch a b alo ahi blo bhi).2.1 +
            (findLongestMatch a b alo ahi blo bhi).2.2 < bhi) then
          matchTotal a b n
            ((findLongestMatch a b alo ahi blo bhi).1 +
              (findLongestMatch a b alo ahi blo bhi).2.2) ahi
            ((findLongestMatch a b alo ahi blo bhi).2.1 +
              (findLongestMatch a b alo ahi blo bhi).2.2) bhi
        else 0) + ((findLongestMatch a b alo ahi blo bhi).2.1 +
            (findLongestMatch a b alo ahi blo bhi).2.2) ≤ bhi := by
        by_cases hC : (decide ((findLongestMatch a b alo ahi blo bhi).1 +
            (findLongestMatch a b alo ahi blo bhi).2.2 < ahi) &&
            decide ((findLongestMatch a b alo ahi blo bhi).2.1 +
            (findLongestMatch a b alo ahi blo bhi).2.2 < bhi)) = true
        · rw [if_pos hC]
          simp only [Bool.and_eq_true, decide_eq_true_eq] at hC
          exact ih _ _ _ _ (le_of_lt hC.1) (le_of_lt hC.2)
        · rw [if_neg hC]; omega
      omega

theorem ratioOf_le_one (a b : List Char) : ratioOf a b ≤ 1 := by
  unfold ratioOf
  by_cases h0 : (a.length + b.length == 0) = true
  · rw [if_pos h0]
  · rw [if_neg h0]
    have hlen : 0 < a.length + b.length := by
      have : a.length + b.length ≠ 0 := by simpa using h0
      omega
    have hM := matchTotal_le a b (a.length + 1) 0 a.length 0 b.length
      (Nat.zero_le _) (Nat.zero_le _)
    have h2M : 2 * matchTotal a b (a.length + 1) 0 a.length 0 b.length ≤
        a.length + b.length := by omega
    rw [Rat.mkRat_eq_div]
    rw [div_le_one (by exact_mod_cast hlen)]
    exact_mod_cast h2M

theorem foldl_keepStep_one :
    ∀ (l acc : List (List Char)), l.foldl (keepStep 1) acc = acc ++ l := by
  intro l
  induction l with
  | nil => intro acc; simp
  | cons c l ih =>
    intro acc
    have hany : acc.any (fun e => decide ((1 : ℚ) < ratioOf c e)) = false := by
      simp only [List.any_eq_false, decide_eq_true_eq]
      intro e _
      exact not_lt.mpr (ratioOf_le_one c e)
    have hstep : keepStep 1 acc c = acc ++ [c] := by simp [keepStep, hany]
    rw [List.foldl_cons, hstep, ih]
    simp

/-- Claim C5 (amended): with threshold 1, `deduplicate_text` keeps every
candidate unit, including character-for-character identical ones: the
similarity ratio is never strictly greater than 1, so the strict duplicate
test never fires and nothing is dropped. -/
theorem c5_threshold_one_keeps_all (text : List Char) :
    retainedUnits text 1 = cleanUnits text := by
  unfold retainedUnits
  rw [foldl_keepStep_one]
  simp

/-! ### The regex segmentation agrees with the specification segmentation
after trimming -/

theorem reSplitAux_cons_split (c : Char) (rest cur : List Char)
    (hC : (isPunct c && headIsWs rest) = true) :
    reSplitAux (c :: rest) cur false =
      (c :: cur).reverse :: reSplitAux rest [] true := by
  simp [reSplitAux, hC]

theorem reSplitAux_cons_push (c : Char) (rest cur : List Char)
    (hC : (isPunct c && headIsWs rest) = false) :
    reSplitAux (c :: rest) cur false = reSplitAux rest (c :: cur) false := by
  simp [reSplitAux, hC]

theorem specSplitAux_cons_split (c : Char) (rest cur : List Char)
    (hC : (isPunct c && headIsWs rest) = true) :
    specSplitAux (c :: rest) cur =
      (c :: cur).reverse :: specSplitAux rest [] := by
  simp [specSplitAux, hC]

theorem specSplitAux_cons_push (c : Char) (rest cur : List Char)
    (hC : (isPunct c && headIsWs rest) = false) :
    specSplitAux (c :: rest) cur = specSplitAux rest (c :: cur) := by
  simp [specSplitAux, hC]

theorem reSplitAux_skip :
    ∀ (cs cur : List Char),
      reSplitAux cs cur true = reSplitAux (cs.dropWhile isWs) cur false := by
  intro cs
  induction cs with
  | nil => intro cur; rfl
  | cons c rest ih =>
    intro cur
    by_cases hw : isWs c = true
    · rw [List.dropWhile_cons_of_pos hw]
      have hstep : reSplitAux (c :: rest) cur true = reSplitAux rest cur true := by
        simp [reSplitAux, hw]
      rw [hstep, ih]
    · have hw' : isWs c = false := Bool.eq_false_iff.mpr hw
      rw [List.dropWhile_cons_of_neg hw]
      show reSplitAux (c :: rest) cur true = reSplitAux (c :: rest) cur false
      simp [reSplitAux, hw']

theorem trimLeft_ws_append :
    ∀ (w x : List Char), w.all isWs = true → trimLeft (w ++ x) = trimLeft x := by
  intro w
  induction w with
  | nil => intro x _; rfl
  | cons c w ih =>
    intro x hw
    have hc : isWs c = true ∧ w.all isWs = true := by simpa using hw
    show trimLeft (c :: (w ++ x)) = trimLeft x
    unfold trimLeft
    rw [List.dropWhile_cons_of_pos hc.1]
    exact ih x hc.2

theorem specSplitAux_ws_prefix :
    ∀ (w cs cur : List Char), w.all isWs = true →
      specSplitAux (w ++ cs) cur = specSplitAux cs (w.reverse ++ cur) := by
  intro w
  induction w with
  | nil => intro cs cur _; simp
  | cons c w ih =>
    intro cs cur hall
    have hc : isWs c = true ∧ w.all isWs = true := by simpa using hall
    have hcp : isPunct c = false := ws_punct_false c hc.1
    have hcond : (isPunct c && headIsWs (w ++ cs)) = false := by simp [hcp]
    rw [List.cons_append, specSplitAux_cons_push c (w ++ cs) cur hcond]
    rw [ih cs (c :: cur) hc.2]
    congr 1
    simp [List.append_assoc]

theorem specSplitAux_trimLeft_acc_ws :
    ∀ (cs cur w : List Char), w.all isWs = true →
      (specSplitAux cs (cur ++ w)).map trimLeft =
        (specSplitAux cs cur).map trimLeft := by
  intro cs
  induction cs with
  | nil =>
    intro cur w hw
    show [((cur ++ w).reverse)].map trimLeft = [cur.reverse].map trimLeft
    simp only [List.map_cons, List.map_nil, List.reverse_append]
    congr 1
    exact trimLeft_ws_append w.reverse cur.reverse
      (by rw [List.all_reverse]; exact hw)
  | cons c rest ih =>
    intro cur w hw
    by_cases hC : (isPunct c && headIsWs rest) = true
    · rw [specSplitAux_cons_split c rest (cur ++ w) hC,
        specSplitAux_cons_split c rest cur hC]
      simp only [List.map_cons]
      congr 1
      simp only [List.reverse_cons, List.reverse_append]
      rw [List.append_assoc]
      exact trimLeft_ws_append w.reverse (cur.reverse ++ [c])
        (by rw [List.all_reverse]; exact hw)
    · have hC' : (isPunct c && headIsWs rest) = false := Bool.eq_false_iff.mpr hC
      rw [specSplitAux_cons_push c rest (cur ++ w) hC',
        specSplitAux_cons_push c rest cur hC']
      have hcw : c :: (cur ++ w) = (c :: cur) ++ w := rfl
      rw [hcw]
      exact ih (c :: cur) w hw

theorem takeWhile_all_ws (l : List Char) : (l.takeWhile isWs).all isWs = true := by
  rw [List.all_eq_true]
  intro x hx
  exact List.mem_takeWhile_imp hx

theorem split_trimLeft_eq :
    ∀ (n : Nat) (cs cur : List Char), cs.length ≤ n →
      (reSplitAux cs cur false).map trimLeft =
        (specSplitAux cs cur).map trimLeft := by
  intro n
  induction n with
  | zero =>
    intro cs cur hlen
    have hnil : cs = [] := List.length_eq_zero.mp (Nat.le_zero.mp hlen)
    subst hnil
    rfl
  | succ n ih =>
    intro cs cur hlen
    cases cs with
    | nil => rfl
    | cons c rest =>
      by_cases hC : (isPunct c && headIsWs rest) = true
      · rw [reSplitAux_cons_split c rest cur hC,
          specSplitAux_cons_split c rest cur hC]
        simp only [List.map_cons]
        congr 1
        rw [reSplitAux_skip]
        have hlen2 : (rest.dropWhile isWs).length ≤ n := by
          have h1 : (rest.dropWhile isWs).length ≤ rest.length :=
            (rest.dropWhile_sublist isWs).length_le
          have h2 : rest.length + 1 ≤ n + 1 := by simpa using hlen
          omega
        rw [ih (rest.dropWhile isWs) [] hlen2]
        have hres : specSplitAux rest [] =
            specSplitAux (rest.dropWhile isWs)
              ((rest.takeWhile isWs).reverse ++ []) := by
          conv_lhs => rw [← List.takeWhile_append_dropWhile isWs rest]
          exact specSplitAux_ws_prefix (rest.takeWhile isWs)
            (rest.dropWhile isWs) [] (takeWhile_all_ws rest)
        rw [hres, List.append_nil]
        have hacc := specSplitAux_trimLeft_acc_ws (rest.dropWhile isWs) []
          (rest.takeWhile isWs).reverse
          (by rw [List.all_reverse]; exact takeWhile_all_ws rest)
        rw [List.nil_append] at hacc
        exact hacc.symm
      · have hC' : (isPunct c && headIsWs rest) = false := Bool.eq_false_iff.mpr hC
        rw [reSplitAux_cons_push c rest cur hC',
          specSplitAux_cons_push c rest cur hC']
        have hlen2 : rest.length ≤ n := by
          have h2 : rest.length + 1 ≤ n + 1 := by simpa using hlen
          omega
        exact ih rest (c :: cur) hlen2

theorem cleanUnits_eq_spec (text : List Char) :
    cleanUnits text = specCleanUnits text := by
  unfold cleanUnits specCleanUnits reSplit specSplit
  have h := split_trimLeft_eq text.length text [] (le_refl _)
  have hmap1 : (reSplitAux text [] false).map pyStrip =
      ((reSplitAux text [] false).map trimLeft).map trimRight := by
    rw [List.map_map]; rfl
  have hmap2 : (specSplitAux text []).map pyStrip =
      ((specSplitAux text []).map trimLeft).map trimRight := by
    rw [List.map_map]; rfl
  rw [hmap1, hmap2, h]

/-- Claim C1: `deduplicate_text` equals the reference algorithm of the
specification: segment after every `.`, `!` or `?` followed by whitespace
(punctuation kept with the preceding unit), trim each segment, discard the
empty ones, scan in order appending a unit only when its similarity ratio
to every already retained unit is not strictly above the threshold
(stopping at the first ratio above it), and join the retained units with
single spaces in first-seen order. -/
theorem c1_matches_reference (text : List Char) (t : ℚ) :
    deduplicate_text text t = dedupSpecRef text t := by
  rw [deduplicate_text_eq_retained]
  unfold dedupSpecRef retainedUnits
  rw [cleanUnits_eq_spec]

/-! ### Structural facts about pyStrip -/

theorem head?_dropWhile_not (p : Char → Bool) :
    ∀ (l : List Char) (a : Char), (l.dropWhile p).head? = some a → p a = false := by
  intro l
  induction l with
  | nil => intro a h; simp at h
  | cons c rest ih =>
    intro a h
    by_cases hp : p c = true
    · rw [List.dropWhile_cons_of_pos hp] at h
      exact ih a h
    · rw [List.dropWhile_cons_of_neg hp] at h
      have hca : c = a := by simpa using h
      subst hca
      exact Bool.eq_false_iff.mpr hp

theorem trimLeft_head_not_ws (l : List Char) (a : Char)
    (h : (trimLeft l).head? = some a) : isWs a = false :=
  head?_dropWhile_not isWs l a h

theorem trimRight_getLast_not_ws (l : List Char) (a : Char)
    (h : (trimRight l).getLast? = some a) : isWs a = false := by
  unfold trimRight at h
  rw [List.getLast?_reverse] at h
  exact head?_dropWhile_not isWs l.reverse a h

theorem trimLeft_of_head_not_ws (l : List Char) (a : Char)
    (h : l.head? = some a) (hw : isWs a = false) : trimLeft l = l := by
  cases l with
  | nil => rfl
  | cons c rest =>
    have hca : c = a := by simpa using h
    subst hca
    unfold trimLeft
    rw [List.dropWhile_cons_of_neg (by simp [hw])]

theorem trimRight_of_last_not_ws (l : List Char) (a : Char)
    (h : l.getLast? = some a) (hw : isWs a = false) : trimRight l = l := by
  unfold trimRight
  have hh : l.reverse.head? = some a := by
    rw [List.head?_reverse]; exact h
  have htl : trimLeft l.reverse = l.reverse :=
    trimLeft_of_head_not_ws l.reverse a hh hw
  unfold trimLeft at htl
  rw [htl, List.reverse_reverse]

theorem head?_trimRight (y : List Char) (a : Char)
    (h : (trimRight y).head? = some a) : y.head? = some a := by
  have hy : trimRight y ++ (y.reverse.takeWhile isWs).reverse = y := by
    unfold trimRight
    rw [← List.reverse_append, List.takeWhile_append_dropWhile,
      List.reverse_reverse]
  cases htr : trimRight y with
  | nil => rw [htr] at h; simp at h
  | cons c tl =>
    rw [htr] at h
    have hca : c = a := by simpa using h
    subst hca
    rw [← hy, htr]
    rfl

theorem pyStrip_head_not_ws (x : List Char) (a : Char)
    (h : (pyStrip x).head? = some a) : isWs a = false := by
  unfold pyStrip at h
  exact trimLeft_head_not_ws x a (head?_trimRight (trimLeft x) a h)

theorem pyStrip_getLast_not_ws (x : List Char) (a : Char)
    (h : (pyStrip x).getLast? = some a) : isWs a = false := by
  unfold pyStrip at h
  exact trimRight_getLast_not_ws (trimLeft x) a h

theorem pyStrip_idem (x : List Char) : pyStrip (pyStrip x) = pyStrip x := by
  cases hs : pyStrip x with
  | nil => rfl
  | cons c tl =>
    have hhead : (pyStrip x).head? = some c := by rw [hs]; rfl
    have hc : isWs c = false := pyStrip_head_not_ws x c hhead
    have hlast : ∃ d, (c :: tl).getLast? = some d ∧ isWs d = false := by
      cases hgl : (c :: tl).getLast? with
      | none => simp at hgl
      | some d =>
        refine ⟨d, rfl, ?_⟩
        apply pyStrip_getLast_not_ws x d
        rw [hs]; exact hgl
    obtain ⟨d, hd, hdw⟩ := hlast
    show pyStrip (c :: tl) = c :: tl
    unfold pyStrip
    rw [trimLeft_of_head_not_ws (c :: tl) c rfl hc]
    exact trimRight_of_last_not_ws (c :: tl) d hd hdw

theorem all_ws_of_pyStrip_eq_nil (l : List Char) (h : pyStrip l = []) :
    l.all isWs = true := by
  unfold pyStrip trimRight at h
  have h1 : (trimLeft l).reverse.dropWhile isWs = [] := by
    have := congrArg List.reverse h
    simpa using this
  have h2 : ∀ x ∈ (trimLeft l).reverse, isWs x = true :=
    List.dropWhile_eq_nil_iff.mp h1
  have h3 : ∀ x ∈ trimLeft l, isWs x = true := by
    intro x hx
    exact h2 x (by simpa using hx)
  rw [List.all_eq_true]
  intro x hx
  rw [← List.takeWhile_append_dropWhile isWs l] at hx
  rcases List.mem_append.mp hx with hx | hx
  · exact List.mem_takeWhile_imp hx
  · exact h3 x hx

theorem punct_not_ws (c : Char) (hp : isPunct c = true) : isWs c = false := by
  simp only [isPunct, Bool.or_eq_true, decide_eq_true_eq] at hp
  rcases hp with (h | h) | h <;> subst h <;> decide

theorem getLast?_trimLeft :
    ∀ (l : List Char) (a : Char), l.getLast? = some a → isWs a = false →
      (trimLeft l).getLast? = some a := by
  intro l
  induction l with
  | nil => intro a h _; simp at h
  | cons c rest ih =>
    intro a h hw
    cases rest with
    | nil =>
      have hca : c = a := by simpa using h
      subst hca
      unfold trimLeft
      rw [List.dropWhile_cons_of_neg (by simp [hw])]
      exact h
    | cons d rest2 =>
      rw [List.getLast?_cons_cons] at h
      by_cases hwc : isWs c = true
      · show (trimLeft (c :: d :: rest2)).getLast? = some a
        unfold trimLeft
        rw [List.dropWhile_cons_of_pos hwc]
        exact ih a h hw
      · unfold trimLeft
        rw [List.dropWhile_cons_of_neg hwc, List.getLast?_cons_cons]
        exact h

theorem pyStrip_getLast_of_not_ws (l : List Char) (a : Char)
    (h : l.getLast? = some a) (hw : isWs a = false) :
    (pyStrip l).getLast? = some a := by
  unfold pyStrip
  have h1 := getLast?_trimLeft l a h hw
  rw [trimRight_of_last_not_ws (trimLeft l) a h1 hw]
  exact h1

theorem ne_nil_of_getLast?_eq_some (l : List Char) (a : Char)
    (h : l.getLast? = some a) : l ≠ [] := by
  intro hnil
  rw [hnil] at h
  simp at h

theorem pyStrip_cons_ws (c : Char) (x : List Char) (hw : isWs c = true) :
    pyStrip (c :: x) = pyStrip x := by
  unfold pyStrip trimLeft
  rw [List.dropWhile_cons_of_pos hw]

theorem trimRight_append_ws (y w : List Char) (hw : w.all isWs = true) :
    trimRight (y ++ w) = trimRight y := by
  unfold trimRight
  rw [List.reverse_append]
  have ht := trimLeft_ws_append w.reverse y.reverse
    (by rw [List.all_reverse]; exact hw)
  unfold trimLeft at ht
  rw [ht]

theorem pyStrip_append_ws (x w : List Char) (hw : w.all isWs = true) :
    pyStrip (x ++ w) = pyStrip x := by
  unfold pyStrip
  by_cases h : trimLeft x = []
  · have hx : ∀ cc ∈ x, isWs cc = true := by
      have hdw : x.dropWhile isWs = [] := h
      exact List.dropWhile_eq_nil_iff.mp hdw
    have h2 : trimLeft (x ++ w) = [] := by
      apply List.dropWhile_eq_nil_iff.mpr
      intro cc hcc
      rcases List.mem_append.mp hcc with hcc | hcc
      · exact hx cc hcc
      · exact (List.all_eq_true.mp hw) cc hcc
    rw [h2, h]
  · have hne : ¬ (x.dropWhile isWs).isEmpty = true := by
      rw [List.isEmpty_iff]
      exact h
    have h2 : trimLeft (x ++ w) = trimLeft x ++ w := by
      unfold trimLeft
      rw [List.dropWhile_append, if_neg hne]
    rw [h2]
    exact trimRight_append_ws (trimLeft x) w hw

/-! ### Texts with a single candidate unit -/

theorem cleanUnits_eq_cleanOf (text : List Char) :
    cleanUnits text = cleanOf (reSplit text) := rfl

theorem cleanOf_all_ws :
    ∀ (cs cur : List Char) (fl : Bool), (fl = true → cur = []) →
      cleanOf (reSplitAux cs cur fl) = [] →
      (cur.reverse ++ cs).all isWs = true := by
  intro cs
  induction cs with
  | nil =>
    intro cur fl _ h
    have hps : pyStrip cur.reverse = [] := by
      by_contra hne
      have hb : (pyStrip cur.reverse).isEmpty = false := by
        simpa [List.isEmpty_iff] using hne
      simp [cleanOf, reSplitAux, hb] at h
    simpa using all_ws_of_pyStrip_eq_nil cur.reverse hps
  | cons c rest ih =>
    intro cur fl hfl h
    by_cases h1 : (fl && isWs c) = true
    · obtain ⟨hfl', hwc⟩ : fl = true ∧ isWs c = true := by simpa using h1
      have hcur : cur = [] := hfl hfl'
      have hstep : reSplitAux (c :: rest) cur fl = reSplitAux rest cur true := by
        simp [reSplitAux, h1]
      rw [hstep] at h
      have hrec := ih cur true (fun _ => hcur) h
      subst hcur
      have hrest : rest.all isWs = true := by simpa using hrec
      simp [hwc, hrest]
    · have h1' : (fl && isWs c) = false := Bool.eq_false_iff.mpr h1
      by_cases hC : (isPunct c && headIsWs rest) = true
      · have hstep : reSplitAux (c :: rest) cur fl =
            (cur.reverse ++ [c]) :: reSplitAux rest [] true := by
          rw [← List.reverse_cons]
          simp [reSplitAux, h1', hC]
        rw [hstep] at h
        have hpc : isPunct c = true := by
          have hCp : isPunct c = true ∧ headIsWs rest = true := by simpa using hC
          exact hCp.1
        have hlast : (cur.reverse ++ [c]).getLast? = some c :=
          List.getLast?_concat _
        have hkeep : (pyStrip (cur.reverse ++ [c])).getLast? = some c :=
          pyStrip_getLast_of_not_ws _ c hlast (punct_not_ws c hpc)
        simp only [cleanOf] at h
        have hmem : pyStrip (cur.reverse ++ [c]) ∈
            List.filter (fun u => !u.isEmpty)
              (List.map pyStrip ((cur.reverse ++ [c]) :: reSplitAux rest [] true)) := by
          apply List.mem_filter.mpr
          refine ⟨by simp, ?_⟩
          have hne := ne_nil_of_getLast?_eq_some _ c hkeep
          simpa [List.isEmpty_iff] using hne
        rw [h] at hmem
        simp at hmem
      · have hC' : (isPunct c && headIsWs rest) = false := Bool.eq_false_iff.mpr hC
        have hstep : reSplitAux (c :: rest) cur fl =
            reSplitAux rest (c :: cur) false := by
          simp [reSplitAux, h1', hC']
        rw [hstep] at h
        have hrec := ih (c :: cur) false
          (fun hx => absurd hx Bool.false_ne_true) h
        simpa [List.reverse_cons, List.append_assoc] using hrec

theorem cleanOf_singleton :
    ∀ (cs cur : List Char) (fl : Bool) (u : List Char), (fl = true → cur = []) →
      cleanOf (reSplitAux cs cur fl) = [u] →
      pyStrip (cur.reverse ++ cs) = u := by
  intro cs
  induction cs with
  | nil =>
    intro cur fl u _ h
    by_cases hps : (pyStrip cur.reverse).isEmpty = true
    · simp [cleanOf, reSplitAux, hps] at h
    · have hps' : (pyStrip cur.reverse).isEmpty = false := Bool.eq_false_iff.mpr hps
      have hlist : [pyStrip cur.reverse] = [u] := by
        simpa [cleanOf, reSplitAux, hps'] using h
      have hu : pyStrip cur.reverse = u := by simpa using hlist
      simpa using hu
  | cons c rest ih =>
    intro cur fl u hfl h
    by_cases h1 : (fl && isWs c) = true
    · obtain ⟨hfl', hwc⟩ : fl = true ∧ isWs c = true := by simpa using h1
      have hcur : cur = [] := hfl hfl'
      have hstep : reSplitAux (c :: rest) cur fl = reSplitAux rest cur true := by
        simp [reSplitAux, h1]
      rw [hstep] at h
      have hrec := ih cur true u (fun _ => hcur) h
      subst hcur
      simp only [List.reverse_nil, List.nil_append] at hrec ⊢
      rw [pyStrip_cons_ws c rest hwc]
      exact hrec
    · have h1' : (fl && isWs c) = false := Bool.eq_false_iff.mpr h1
      by_cases hC : (isPunct c && headIsWs rest) = true
      · have hstep : reSplitAux (c :: rest) cur fl =
            (cur.reverse ++ [c]) :: reSplitAux rest [] true := by
          rw [← List.reverse_cons]
          simp [reSplitAux, h1', hC]
        rw [hstep] at h
        have hpc : isPunct c = true := by
          have hCp : isPunct c = true ∧ headIsWs rest = true := by simpa using hC
          exact hCp.1
        have hlast : (cur.reverse ++ [c]).getLast? = some c :=
          List.getLast?_concat _
        have hkeep : (pyStrip (cur.reverse ++ [c])).getLast? = some c :=
          pyStrip_getLast_of_not_ws _ c hlast (punct_not_ws c hpc)
        have hb : (pyStrip (cur.reverse ++ [c])).isEmpty = false := by
          simpa [List.isEmpty_iff] using ne_nil_of_getLast?_eq_some _ c hkeep
        have hcons : cleanOf ((cur.reverse ++ [c]) :: reSplitAux rest [] true) =
            pyStrip (cur.reverse ++ [c]) :: cleanOf (reSplitAux rest [] true) := by
          simp [cleanOf, List.filter_cons, hb]
        rw [hcons] at h
        injection h with hu1 hL
        have hws : rest.all isWs = true := by
          have hall := cleanOf_all_ws rest [] true (fun _ => rfl) hL
          simpa using hall
        have hgoal : cur.reverse ++ (c :: rest) = (cur.reverse ++ [c]) ++ rest := by
          simp
        rw [hgoal, pyStrip_append_ws (cur.reverse ++ [c]) rest hws]
        exact hu1
      · have hC' : (isPunct c && headIsWs rest) = false := Bool.eq_false_iff.mpr hC
        have hstep : reSplitAux (c :: rest) cur fl =
            reSplitAux rest (c :: cur) false := by
          simp [reSplitAux, h1', hC']
        rw [hstep] at h
        have hrec := ih (c :: cur) false u
          (fun hx => absurd hx Bool.false_ne_true) h
        rw [List.reverse_cons, List.append_assoc] at hrec
        simpa using hrec

/-- Claim C8: when the text segments into exactly one candidate sentence
unit, `deduplicate_text` returns the stripped text for every threshold. -/
theorem c8_single_unit (text : List Char) (t : ℚ)
    (h : (cleanUnits text).length = 1) :
    deduplicate_text text t = pyStrip text := by
  obtain ⟨u, hu⟩ := List.length_eq_one.mp h
  have hstrip : pyStrip text = u := by
    have hs := cleanOf_singleton text [] false u
      (fun hx => absurd hx Bool.false_ne_true) hu
    simpa using hs
  rw [deduplicate_text_eq_retained]
  unfold retainedUnits
  rw [hu]
  have hfold : [u].foldl (keepStep t) ([] : List (List Char)) = [u] := by
    simp [keepStep]
  rw [hfold]
  have hjoin : joinSpaces [u] = u := by simp [joinSpaces]
  rw [hjoin, hstrip]

theorem c8_single_unit_witness :
    (cleanUnits "hello".toList).length = 1 ∧
      deduplicate_text "hello".toList (mkRat 1 2) = pyStrip "hello".toList :=
  ⟨by decide, c8_single_unit "hello".toList (mkRat 1 2) (by decide)⟩

/-! ### The output carries no outer whitespace -/

theorem cleanUnits_mem (text : List Char) (u : List Char)
    (hu : u ∈ cleanUnits text) : pyStrip u = u ∧ u ≠ [] := by
  unfold cleanUnits at hu
  obtain ⟨hum, hne⟩ := List.mem_filter.mp hu
  obtain ⟨s, hs, rfl⟩ := List.mem_map.mp hum
  refine ⟨pyStrip_idem s, ?_⟩
  intro hnil
  rw [hnil] at hne
  simp at hne

theorem retained_sublist_clean (text : List Char) (t : ℚ) :
    List.Sublist (retainedUnits text t) (cleanUnits text) := by
  simpa [retainedUnits] using foldl_keepStep_sublist t (cleanUnits text) []

theorem retained_mem (text : List Char) (t : ℚ) (u : List Char)
    (hu : u ∈ retainedUnits text t) : pyStrip u = u ∧ u ≠ [] :=
  cleanUnits_mem text u ((retained_sublist_clean text t).subset hu)

theorem joinSpaces_head (r : List Char) (rs : List (List Char)) (hr : r ≠ []) :
    (joinSpaces (r :: rs)).head? = r.head? := by
  cases rs with
  | nil => simp [joinSpaces]
  | cons s rs2 =>
    show (((r :: s :: rs2).intersperse [' ']).flatten).head? = r.head?
    rw [show (r :: s :: rs2).intersperse [' '] =
      r :: [' '] :: (s :: rs2).intersperse [' '] from rfl]
    rw [List.flatten_cons]
    cases r with
    | nil => exact absurd rfl hr
    | cons c tl => rfl

theorem joinSpaces_ne_nil (r : List Char) (rs : List (List Char)) (hr : r ≠ []) :
    joinSpaces (r :: rs) ≠ [] := by
  intro h
  have hh := joinSpaces_head r rs hr
  rw [h] at hh
  cases r with
  | nil => exact hr rfl
  | cons c tl => simp at hh

theorem getLast?_append_right (a b : List Char) (hb : b ≠ []) :
    (a ++ b).getLast? = b.getLast? := by
  rw [List.getLast?_append]
  cases hgl : b.getLast? with
  | none => exact absurd (List.getLast?_eq_none_iff.mp hgl) hb
  | some c => rfl

theorem joinSpaces_getLast :
    ∀ (rs : List (List Char)) (hne : rs ≠ []) (_ : ∀ u ∈ rs, u ≠ []),
      (joinSpaces rs).getLast? = (rs.getLast hne).getLast? := by
  intro rs
  induction rs with
  | nil => intro hne _; exact absurd rfl hne
  | cons r rs2 ih =>
    intro hne hall
    cases rs2 with
    | nil =>
      have h1 : joinSpaces [r] = r := by simp [joinSpaces]
      rw [h1]
      rfl
    | cons s rs3 =>
      have hs : s ≠ [] := hall s (by simp)
      have hjoin : joinSpaces (r :: s :: rs3) =
          r ++ (' ' :: joinSpaces (s :: rs3)) := by
        show (((r :: s :: rs3).intersperse [' ']).flatten) = _
        rw [show (r :: s :: rs3).intersperse [' '] =
          r :: [' '] :: (s :: rs3).intersperse [' '] from rfl]
        rw [List.flatten_cons, List.flatten_cons]
        rfl
      rw [hjoin]
      rw [getLast?_append_right r _ (List.cons_ne_nil _ _)]
      have hj_ne : joinSpaces (s :: rs3) ≠ [] := joinSpaces_ne_nil s rs3 hs
      have h2 : (' ' :: joinSpaces (s :: rs3)).getLast? =
          (joinSpaces (s :: rs3)).getLast? := by
        rw [show ' ' :: joinSpaces (s :: rs3) =
          [' '] ++ joinSpaces (s :: rs3) from rfl]
        exact getLast?_append_right [' '] _ hj_ne
      rw [h2, ih (List.cons_ne_nil s rs3)
        (fun u hu => hall u (List.mem_cons_of_mem r hu))]
      congr 1

/-- Claim C10: the output of `deduplicate_text` has no leading or trailing
whitespace: it equals its own strip, since every retained unit is stripped
and units are joined with single spaces. -/
theorem c10_output_stripped (text : List Char) (t : ℚ) :
    pyStrip (deduplicate_text text t) = deduplicate_text text t := by
  rw [deduplicate_text_eq_retained]
  cases hrs : retainedUnits text t with
  | nil => rfl
  | cons r rs2 =>
    have hmem : ∀ u ∈ r :: rs2, pyStrip u = u ∧ u ≠ [] := by
      intro u hu
      apply retained_mem text t u
      rw [hrs]; exact hu
    have hr := hmem r (List.mem_cons_self _ _)
    have hhead : (joinSpaces (r :: rs2)).head? = r.head? :=
      joinSpaces_head r rs2 hr.2
    obtain ⟨c, hc⟩ : ∃ c, r.head? = some c := by
      cases r with
      | nil => exact absurd rfl hr.2
      | cons c tl => exact ⟨c, rfl⟩
    have hcns : isWs c = false := by
      apply pyStrip_head_not_ws r c
      rw [hr.1]; exact hc
    have hlast := joinSpaces_getLast (r :: rs2) (List.cons_ne_nil _ _)
      (fun u hu => (hmem u hu).2)
    have hvmem : (r :: rs2).getLast (List.cons_ne_nil _ _) ∈ r :: rs2 :=
      List.getLast_mem _
    have hvprop := hmem _ hvmem
    obtain ⟨d, hd⟩ : ∃ d,
        ((r :: rs2).getLast (List.cons_ne_nil _ _)).getLast? = some d := by
      cases hvl : ((r :: rs2).getLast (List.cons_ne_nil _ _)).getLast? with
      | none => exact absurd (List.getLast?_eq_none_iff.mp hvl) hvprop.2
      | some d => exact ⟨d, rfl⟩
    have hdns : isWs d = false := by
      apply pyStrip_getLast_not_ws _ d
      rw [hvprop.1]; exact hd
    unfold pyStrip
    rw [trimLeft_of_head_not_ws _ c (by rw [hhead]; exact hc) hcns]
    apply trimRight_of_last_not_ws _ d ?_ hdns
    rw [hlast]
    exact hd

/-! ### Idempotence: structural invariants of the retained units -/

theorem reSplitAux_ne_nil : ∀ (cs cur : List Char) (fl : Bool),
    reSplitAux cs cur fl ≠ [] := by
  intro cs
  induction cs with
  | nil => intro cur fl; simp [reSplitAux]
  | cons c rest ih =>
    intro cur fl
    unfold reSplitAux
    split
    · exact ih cur true
    · split
      · exact List.cons_ne_nil _ _
      · exact ih (c :: cur) false

theorem reSplitAux_dropLast_punct :
    ∀ (cs cur : List Char) (fl : Bool) (x : List Char),
      x ∈ (reSplitAux cs cur fl).dropLast → endsPunct x = true := by
  intro cs
  induction cs with
  | nil =>
    intro cur fl x hx
    simp [reSplitAux] at hx
  | cons c rest ih =>
    intro cur fl x hx
    by_cases h1 : (fl && isWs c) = true
    · have hstep : reSplitAux (c :: rest) cur fl = reSplitAux rest cur true := by
        simp [reSplitAux, h1]
      rw [hstep] at hx
      exact ih cur true x hx
    · have h1' := Bool.eq_false_iff.mpr h1
      by_cases hC : (isPunct c && headIsWs rest) = true
      · have hstep : reSplitAux (c :: rest) cur fl =
            (cur.reverse ++ [c]) :: reSplitAux rest [] true := by
          rw [← List.reverse_cons]
          simp [reSplitAux, h1', hC]
        rw [hstep] at hx
        rw [List.dropLast_cons_of_ne_nil (reSplitAux_ne_nil rest [] true)] at hx
        rcases List.mem_cons.mp hx with rfl | hx2
        · have hpc : isPunct c = true := by
            have hCp : isPunct c = true ∧ headIsWs rest = true := by simpa using hC
            exact hCp.1
          unfold endsPunct
          rw [List.getLast?_concat _]
          exact hpc
        · exact ih [] true x hx2
      · have hC' := Bool.eq_false_iff.mpr hC
        have hstep : reSplitAux (c :: rest) cur fl =
            reSplitAux rest (c :: cur) false := by
          simp [reSplitAux, h1', hC']
        rw [hstep] at hx
        exact ih (c :: cur) false x hx

theorem endsPunct_pyStrip (x : List Char) (h : endsPunct x = true) :
    endsPunct (pyStrip x) = true := by
  unfold endsPunct at h ⊢
  cases hgl : x.getLast? with
  | none => rw [hgl] at h; simp at h
  | some c =>
    rw [hgl] at h
    rw [pyStrip_getLast_of_not_ws x c hgl (punct_not_ws c h)]
    exact h

theorem dropLast_map_punct (l : List (List Char))
    (h : ∀ x ∈ l.dropLast, endsPunct x = true) :
    ∀ x ∈ (l.map pyStrip).dropLast, endsPunct x = true := by
  intro x hx
  rw [← List.map_dropLast] at hx
  obtain ⟨y, hy, rfl⟩ := List.mem_map.mp hx
  exact endsPunct_pyStrip y (h y hy)

theorem dropLast_filter_punct (q : List Char → Bool) :
    ∀ (l : List (List Char)),
      (∀ x ∈ l.dropLast, endsPunct x = true) →
      ∀ x ∈ (l.filter q).dropLast, endsPunct x = true := by
  intro l
  induction l with
  | nil => intro _ x hx; simp at hx
  | cons c rest ih =>
    intro h x hx
    have hrest : ∀ y ∈ rest.dropLast, endsPunct y = true := by
      intro y hy
      apply h
      cases rest with
      | nil => simp at hy
      | cons d rs =>
        rw [List.dropLast_cons_of_ne_nil (List.cons_ne_nil d rs)]
        exact List.mem_cons_of_mem c hy
    by_cases hq : q c = true
    · rw [List.filter_cons_of_pos hq] at hx
      cases hfr : rest.filter q with
      | nil => rw [hfr] at hx; simp at hx
      | cons d rs =>
        rw [hfr, List.dropLast_cons_of_ne_nil (List.cons_ne_nil d rs)] at hx
        rcases List.mem_cons.mp hx with rfl | hx2
        · apply h
          cases rest with
          | nil => simp at hfr
          | cons e es =>
            rw [List.dropLast_cons_of_ne_nil (List.cons_ne_nil e es)]
            exact List.mem_cons_self _ _
        · rw [← hfr] at hx2
          exact ih hrest x hx2
    · rw [List.filter_cons_of_neg hq] at hx
      exact ih hrest x hx

theorem foldl_keepStep_dropLast_punct (t : ℚ) :
    ∀ (units acc : List (List Char)),
      (∀ x ∈ acc, endsPunct x = true) →
      (∀ x ∈ units.dropLast, endsPunct x = true) →
      ∀ x ∈ (units.foldl (keepStep t) acc).dropLast, endsPunct x = true := by
  intro units
  induction units with
  | nil =>
    intro acc hacc _ x hx
    exact hacc x ((List.dropLast_sublist _).subset hx)
  | cons cnd rest ih =>
    intro acc hacc hunits x hx
    rw [List.foldl_cons] at hx
    cases hr : rest with
    | nil =>
      subst hr
      simp only [List.foldl_nil] at hx
      unfold keepStep at hx
      by_cases hany : (acc.any fun e => decide (t < ratioOf cnd e)) = true
      · rw [if_pos hany] at hx
        exact hacc x ((List.dropLast_sublist _).subset hx)
      · rw [if_neg hany] at hx
        rw [List.dropLast_concat] at hx
        exact hacc x hx
    | cons d rs =>
      subst hr
      have hcnd : endsPunct cnd = true := by
        apply hunits
        rw [List.dropLast_cons_of_ne_nil (List.cons_ne_nil d rs)]
        exact List.mem_cons_self _ _
      have hrest : ∀ y ∈ (d :: rs).dropLast, endsPunct y = true := by
        intro y hy
        apply hunits
        rw [List.dropLast_cons_of_ne_nil (List.cons_ne_nil d rs)]
        exact List.mem_cons_of_mem _ hy
      have hacc2 : ∀ y ∈ keepStep t acc cnd, endsPunct y = true := by
        intro y hy
        unfold keepStep at hy
        by_cases hany : (acc.any fun e => decide (t < ratioOf cnd e)) = true
        · rw [if_pos hany] at hy; exact hacc y hy
        · rw [if_neg hany] at hy
          rcases List.mem_append.mp hy with hy | hy
          · exact hacc y hy
          · rw [List.mem_singleton.mp hy]; exact hcnd
      exact ih (keepStep t acc cnd) hacc2 hrest x hx

theorem chain'_dropWhile {S : Char → Char → Prop} (p : Char → Bool) :
    ∀ (l : List Char), List.Chain' S l → List.Chain' S (l.dropWhile p) := by
  intro l
  induction l with
  | nil => intro h; exact h
  | cons c rest ih =>
    intro h
    by_cases hp : p c = true
    · rw [List.dropWhile_cons_of_pos hp]
      exact ih h.tail
    · rw [List.dropWhile_cons_of_neg hp]
      exact h

theorem chain_pyStrip (x : List Char)
    (h : List.Chain' (fun a y => okPair a y = true) x) :
    List.Chain' (fun a y => okPair a y = true) (pyStrip x) := by
  have h1 : List.Chain' (fun a y => okPair a y = true) (trimLeft x) :=
    chain'_dropWhile isWs x h
  show List.Chain' (fun a y => okPair a y = true) (trimRight (trimLeft x))
  unfold trimRight
  rw [List.chain'_reverse]
  apply chain'_dropWhile isWs
  exact (List.chain'_reverse).mpr h1

theorem reSplitAux_chain :
    ∀ (cs cur : List Char) (fl : Bool),
      List.Chain' (fun a y => okPair a y = true) cur.reverse →
      (∀ p h2, cur.head? = some p → cs.head? = some h2 → okPair p h2 = true) →
      ∀ x ∈ reSplitAux cs cur fl,
        List.Chain' (fun a y => okPair a y = true) x := by
  intro cs
  induction cs with
  | nil =>
    intro cur fl hch _ x hx
    have hx2 : x = cur.reverse := by simpa [reSplitAux] using hx
    rw [hx2]
    exact hch
  | cons c rest ih =>
    intro cur fl hch hbound x hx
    by_cases h1 : (fl && isWs c) = true
    · have hstep : reSplitAux (c :: rest) cur fl = reSplitAux rest cur true := by
        simp [reSplitAux, h1]
      rw [hstep] at hx
      obtain ⟨hfl', hwc⟩ : fl = true ∧ isWs c = true := by simpa using h1
      -- in skip mode the pair (cur head, rest head): the char c was whitespace,
      -- so a punctuation head of cur would already have split; but we do not
      -- need the boundary at all unless cur is reused: derive it from hbound
      -- only when rest starts; here we weaken using hbound with c replaced:
      exact ih cur true hch
        (fun p h2 hp hh => by
          have hpc := hbound p c hp rfl
          -- okPair p c with isWs c true forces isPunct p = false, hence okPair p h2
          have hnp : isPunct p = false := by
            by_contra hcon
            have hp2 : isPunct p = true := by
              cases hq : isPunct p
              · exact absurd hq hcon
              · rfl
            simp [okPair, hp2, hwc] at hpc
          simp [okPair, hnp]) x hx
    · have h1' := Bool.eq_false_iff.mpr h1
      by_cases hC : (isPunct c && headIsWs rest) = true
      · have hstep : reSplitAux (c :: rest) cur fl =
            (cur.reverse ++ [c]) :: reSplitAux rest [] true := by
          rw [← List.reverse_cons]
          simp [reSplitAux, h1', hC]
        rw [hstep] at hx
        rcases List.mem_cons.mp hx with rfl | hx2
        · rw [List.chain'_append]
          refine ⟨hch, List.chain'_singleton c, ?_⟩
          intro p hp y hy
          have hyc : c = y := by simpa using hy
          subst hyc
          have hp2 : cur.head? = some p := by
            rw [← List.getLast?_reverse cur]
            exact hp
          exact hbound p c hp2 rfl
        · exact ih [] true List.chain'_nil
            (by intro p h2 hp hh; simp at hp) x hx2
      · have hC' := Bool.eq_false_iff.mpr hC
        have hstep : reSplitAux (c :: rest) cur fl =
            reSplitAux rest (c :: cur) false := by
          simp [reSplitAux, h1', hC']
        rw [hstep] at hx
        apply ih (c :: cur) false ?_ ?_ x hx
        · rw [List.reverse_cons, List.chain'_append]
          refine ⟨hch, List.chain'_singleton c, ?_⟩
          intro p hp y hy
          have hyc : c = y := by simpa using hy
          subst hyc
          have hp2 : cur.head? = some p := by
            rw [← List.getLast?_reverse cur]
            exact hp
          exact hbound p c hp2 rfl
        · intro p h2 hp hh
          have hpc : c = p := by simpa using hp
          subst hpc
          have hfalse : (isPunct c && isWs h2) = false := by
            cases rest with
            | nil => simp at hh
            | cons d rs =>
              have hd : d = h2 := by simpa using hh
              subst hd
              exact hC'
          simp [okPair, hfalse]

theorem cleanUnits_chain (text : List Char) (u : List Char)
    (hu : u ∈ cleanUnits text) :
    List.Chain' (fun a y => okPair a y = true) u := by
  unfold cleanUnits at hu
  obtain ⟨hum, _⟩ := List.mem_filter.mp hu
  obtain ⟨s, hs, rfl⟩ := List.mem_map.mp hum
  apply chain_pyStrip
  exact reSplitAux_chain text [] false List.chain'_nil
    (by intro p h2 hp hh; simp at hp) s hs

theorem scan_split_boundary :
    ∀ (r cur suffix : List Char) (p : Char),
      List.Chain' (fun a y => okPair a y = true) r →
      r.getLast? = some p → isPunct p = true →
      (∀ h0, suffix.head? = some h0 → isWs h0 = false) →
      reSplitAux (r ++ ' ' :: suffix) cur false =
        (cur.reverse ++ r) :: reSplitAux suffix [] false := by
  intro r
  induction r with
  | nil => intro cur suffix p _ hlast _ _; simp at hlast
  | cons c rest ih =>
    intro cur suffix p hch hlast hpunct hsuf
    cases rest with
    | nil =>
      have hpc : c = p := by simpa using hlast
      subst hpc
      have hws : isWs ' ' = true := by decide
      have hcond : (isPunct c && headIsWs (' ' :: suffix)) = true := by
        simp [headIsWs, hpunct, hws]
      show reSplitAux ([c] ++ ' ' :: suffix) cur false = _
      rw [List.singleton_append,
        reSplitAux_cons_split c (' ' :: suffix) cur hcond, reSplitAux_skip]
      have hdw : (' ' :: suffix).dropWhile isWs = suffix := by
        rw [List.dropWhile_cons_of_pos hws]
        cases suffix with
        | nil => rfl
        | cons h0 tl =>
          rw [List.dropWhile_cons_of_neg (by simp [hsuf h0 rfl])]
      rw [hdw]
      congr 1
      rw [List.reverse_cons]
    | cons d rs =>
      have hok : okPair c d = true := (List.chain'_cons.mp hch).1
      have hok2 : (isPunct c && isWs d) = false := by
        unfold okPair at hok
        cases hb : (isPunct c && isWs d)
        · rfl
        · rw [hb] at hok
          exact absurd hok (by decide)
      have hcond : (isPunct c && headIsWs ((d :: rs) ++ ' ' :: suffix)) = false :=
        hok2
      show reSplitAux ((c :: d :: rs) ++ ' ' :: suffix) cur false = _
      rw [List.cons_append,
        reSplitAux_cons_push c ((d :: rs) ++ ' ' :: suffix) cur hcond]
      have hlast2 : (d :: rs).getLast? = some p := by
        rw [← List.getLast?_cons_cons]
        exact hlast
      rw [ih (c :: cur) suffix p hch.tail hlast2 hpunct hsuf]
      congr 1
      simp [List.reverse_cons, List.append_assoc]

theorem cleanUnits_join :
    ∀ (rs : List (List Char)),
      (∀ r ∈ rs, pyStrip r = r ∧ r ≠ [] ∧
        List.Chain' (fun a y => okPair a y = true) r) →
      (∀ r ∈ rs.dropLast, endsPunct r = true) →
      cleanUnits (joinSpaces rs) = rs := by
  intro rs
  induction rs with
  | nil => intro _ _; rfl
  | cons r rs2 ih =>
    intro hall habl
    have hr := hall r (List.mem_cons_self _ _)
    have hremp : (r.isEmpty) = false := by
      simpa [List.isEmpty_iff] using hr.2.1
    cases rs2 with
    | nil =>
      have hjoin : joinSpaces [r] = r := by simp [joinSpaces]
      rw [hjoin]
      unfold cleanUnits
      rw [show reSplit r = [r] from by
        simpa [reSplit] using scan_no_split r [] hr.2.2]
      rw [List.map_cons, List.map_nil, hr.1]
      simp [hremp]
    | cons s rs3 =>
      have hs := hall s (by simp)
      have hjoin : joinSpaces (r :: s :: rs3) =
          r ++ (' ' :: joinSpaces (s :: rs3)) := by
        show (((r :: s :: rs3).intersperse [' ']).flatten) = _
        rw [show (r :: s :: rs3).intersperse [' '] =
          r :: [' '] :: (s :: rs3).intersperse [' '] from rfl]
        rw [List.flatten_cons, List.flatten_cons]
        rfl
      rw [hjoin]
      have hrp : endsPunct r = true := by
        apply habl
        rw [List.dropLast_cons_of_ne_nil (List.cons_ne_nil s rs3)]
        exact List.mem_cons_self _ _
      obtain ⟨p, hp, hppunct⟩ : ∃ p, r.getLast? = some p ∧ isPunct p = true := by
        unfold endsPunct at hrp
        cases hgl : r.getLast? with
        | none => rw [hgl] at hrp; simp at hrp
        | some p => rw [hgl] at hrp; exact ⟨p, rfl, hrp⟩
      have hsuf : ∀ h0, (joinSpaces (s :: rs3)).head? = some h0 →
          isWs h0 = false := by
        intro h0 hh
        rw [joinSpaces_head s rs3 hs.2.1] at hh
        apply pyStrip_head_not_ws s h0
        rw [hs.1]; exact hh
      unfold cleanUnits reSplit
      rw [scan_split_boundary r [] (joinSpaces (s :: rs3)) p hr.2.2 hp
        hppunct hsuf]
      simp only [List.reverse_nil, List.nil_append]
      rw [List.map_cons, hr.1, List.filter_cons_of_pos (by simp [hremp])]
      congr 1
      have hih := ih (fun u hu => hall u (List.mem_cons_of_mem r hu))
        (fun u hu => by
          apply habl
          rw [List.dropLast_cons_of_ne_nil (List.cons_ne_nil s rs3)]
          exact List.mem_cons_of_mem r hu)
      exact hih

theorem foldl_keepStep_pairwise :
    ∀ (rs acc : List (List Char)) (t : ℚ),
      (∀ e ∈ acc, ∀ l2 ∈ rs, ¬ t < ratioOf l2 e) →
      rs.Pairwise (fun e l2 => ¬ t < ratioOf l2 e) →
      rs.foldl (keepStep t) acc = acc ++ rs := by
  intro rs
  induction rs with
  | nil => intro acc t _ _; simp
  | cons c rest ih =>
    intro acc t hcross hpw
    have hany : (acc.any fun e => decide (t < ratioOf c e)) = false := by
      simp only [List.any_eq_false, decide_eq_true_eq]
      intro e he
      exact hcross e he c (List.mem_cons_self _ _)
    have hstep : keepStep t acc c = acc ++ [c] := by simp [keepStep, hany]
    obtain ⟨hhead, htail⟩ := List.pairwise_cons.mp hpw
    rw [List.foldl_cons, hstep]
    rw [ih (acc ++ [c]) t ?_ htail]
    · simp
    · intro e he l2 hl2
      rcases List.mem_append.mp he with he | he
      · exact hcross e he l2 (List.mem_cons_of_mem c hl2)
      · rw [List.mem_singleton.mp he]
        exact hhead l2 hl2

/-- Claim C6: applying `deduplicate_text` a second time with the same
threshold to its own output returns that output unchanged. -/
theorem c6_idempotent (text : List Char) (t : ℚ) :
    deduplicate_text (deduplicate_text text t) t = deduplicate_text text t := by
  rw [deduplicate_text_eq_retained text t,
    deduplicate_text_eq_retained (joinSpaces (retainedUnits text t)) t]
  congr 1
  have hprops : ∀ r ∈ retainedUnits text t, pyStrip r = r ∧ r ≠ [] ∧
      List.Chain' (fun a y => okPair a y = true) r := by
    intro r hr
    have h1 := retained_mem text t r hr
    exact ⟨h1.1, h1.2,
      cleanUnits_chain text r ((retained_sublist_clean text t).subset hr)⟩
  have habl : ∀ r ∈ (retainedUnits text t).dropLast, endsPunct r = true := by
    have hcl : ∀ x ∈ (cleanUnits text).dropLast, endsPunct x = true := by
      apply dropLast_filter_punct
      apply dropLast_map_punct
      intro x hx
      exact reSplitAux_dropLast_punct text [] false x hx
    exact foldl_keepStep_dropLast_punct t (cleanUnits text) []
      (by intro x hx; simp at hx) hcl
  have hjoin := cleanUnits_join (retainedUnits text t) hprops habl
  calc retainedUnits (joinSpaces (retainedUnits text t)) t
      = (cleanUnits (joinSpaces (retainedUnits text t))).foldl (keepStep t) [] :=
        rfl
    _ = (retainedUnits text t).foldl (keepStep t) [] := by rw [hjoin]
    _ = [] ++ retainedUnits text t :=
        foldl_keepStep_pairwise (retainedUnits text t) [] t
          (by intro e he; simp at he) (retained_pairwise text t)
    _ = retainedUnits text t := by simp

end Dedup
